import Mathlib

/-- JavaScript strings, modelled as lists of characters. -/
abbrev Str := List Char

/-- `s.split('\n')` : splits at every newline; the empty string yields
one empty segment, exactly as in JavaScript. -/
def splitLines : Str → List Str
  | [] => [[]]
  | c :: rest =>
    if c = '\n' then [] :: splitLines rest
    else (c :: (splitLines rest).headI) :: (splitLines rest).tail

/-- `lines.join('\n')`. -/
def joinLines : List Str → Str
  | [] => []
  | [l] => l
  | l :: l2 :: ls => l ++ '\n' :: joinLines (l2 :: ls)

/-- ECMAScript `ToInteger`-style clamp of a substring index into `[0, len]`. -/
def clampI (x : Int) (len : Nat) : Nat := (min (max x 0) (len : Int)).toNat

/-- JavaScript `s.substring(a, b)`: clamps both indices into range and
swaps them when given out of order. -/
def jsSubstring (s : Str) (a b : Int) : Str :=
  let ia := clampI a s.length
  let ib := clampI b s.length
  (s.take (max ia ib)).drop (min ia ib)

/-- JavaScript `s.substring(a)` (one-argument form). -/
def jsSubstringFrom (s : Str) (a : Int) : Str := s.drop (clampI a s.length)

/-- JavaScript array indexing `l[i]`: `undefined` (here `none`) when the
index is negative or past the end. -/
def getI {α : Type} (l : List α) (i : Int) : Option α :=
  if i < 0 then none else l.get? i.toNat

/-- JavaScript `arr.splice(start, deleteCount, ...items)` (returning the
mutated array): both `start` and `deleteCount` are clamped. -/
def jsSplice {α : Type} (l : List α) (start delCnt : Int) (items : List α) : List α :=
  let st := clampI start l.length
  let dc := (min (max delCnt 0) ((l.length : Int) - st)).toNat
  l.take st ++ items ++ l.drop (st + dc)

/-- `newLines[0] = f(newLines[0])` on a (possibly empty) array. -/
def mapHead (f : Str → Str) : List Str → List Str
  | [] => []
  | h :: t => f h :: t

/-- `newLines[newLines.length - 1] = f(...)` on a (possibly empty) array. -/
def mapLast (f : Str → Str) : List Str → List Str
  | [] => []
  | [x] => [f x]
  | x :: y :: t => x :: mapLast f (y :: t)

/-- The `range` field of a change event (1-based Monaco-style coordinates,
arbitrary integers as far as the code is concerned). -/
structure ChangeRange where
  startLineNumber : Int
  startColumn : Int
  endLineNumber : Int
  endColumn : Int
  deriving DecidableEq, Repr

/-- A change whose `text` field is known to be a string (the shape consumed
by `applyChange` after the `typeof change.text === 'string'` guard). -/
structure Change where
  range : ChangeRange
  text : Str
  deriving DecidableEq, Repr

/-- A change event as received on the wire: `text` is `none` when the
field holds a non-string value. -/
structure ChangeMsg where
  range : ChangeRange
  text : Option Str
  deriving DecidableEq, Repr

/-- The server's `applyChange(content, change)`.  Out-of-bounds line
indices make the JavaScript code dereference `undefined`, which throws
before `room.content` is assigned; that observable outcome is `none`. -/
def applyChange (content : Str) (c : Change) : Option Str :=
  let lines := splitLines content
  let r := c.range
  if r.startLineNumber = r.endLineNumber then
    match getI lines (r.startLineNumber - 1) with
    | none => none
    | some line =>
      let newLine :=
        jsSubstring line 0 (r.startColumn - 1) ++ c.text ++
          jsSubstringFrom line (r.endColumn - 1)
      some (joinLines (lines.set (r.startLineNumber - 1).toNat newLine))
  else
    match getI lines (r.startLineNumber - 1), getI lines (r.endLineNumber - 1) with
    | some startLine, some endLine =>
      let newLines := splitLines c.text
      let newLines := mapHead (fun h => jsSubstring startLine 0 (r.startColumn - 1) ++ h) newLines
      let newLines := mapLast (fun l => l ++ jsSubstringFrom endLine (r.endColumn - 1)) newLines
      some (joinLines (jsSplice lines (r.startLineNumber - 1)
        (r.endLineNumber - r.startLineNumber + 1) newLines))
    | _, _ => none

/-- Modelled from the spec: the standard range-replace text edit on a
buffer given as a sequence of lines, with 0-based start line `i`, start
column `j`, end line `k`, end column `jl`: the prefix of the start line
and the suffix of the end line are preserved and the addressed region is
replaced by the (possibly multi-line) replacement text. -/
def rangeReplaceSpec (bs : List Str) (i j k jl : Nat) (t : Str) : List Str :=
  bs.take i ++ splitLines ((bs.getD i []).take j ++ t ++ (bs.getD k []).drop jl) ++
    bs.drop (k + 1)

/-- The 0-based end column of the range that spans exactly the text `t`
after it was inserted at 0-based column `j`: for single-line `t` the
insertion column plus its length, for multi-line `t` the length of its
last line. -/
def spanEndCol (j : Nat) (t : Str) : Nat :=
  if (splitLines t).length = 1 then j + t.length
  else ((splitLines t).getLastD []).length

/-- JavaScript `Map.prototype.get`. -/
def alGet {κ α : Type} [DecidableEq κ] (m : List (κ × α)) (k : κ) : Option α :=
  (m.find? (fun p => decide (p.1 = k))).map (fun p => p.2)

/-- JavaScript `Map.prototype.set`: updates an existing key in place
(preserving insertion order) or appends a new binding. -/
def alSet {κ α : Type} [DecidableEq κ] (m : List (κ × α)) (k : κ) (v : α) :
    List (κ × α) :=
  match m with
  | [] => [(k, v)]
  | p :: rest => if p.1 = k then (k, v) :: rest else p :: alSet rest k v

/-- JavaScript `Map.prototype.delete`. -/
def alDel {κ α : Type} [DecidableEq κ] (m : List (κ × α)) (k : κ) : List (κ × α) :=
  m.filter (fun p => decide (p.1 ≠ k))

/-- `Array.from(map.values())`. -/
def alValues {κ α : Type} (m : List (κ × α)) : List α := m.map (fun p => p.2)

structure CursorPos where
  row : Int
  column : Int
  deriving DecidableEq, Repr

structure SelectionR where
  startRow : Int
  startColumn : Int
  endRow : Int
  endColumn : Int
  deriving DecidableEq, Repr

/-- The `UserPresence` record of `services/collaboration.ts` (the profile
blob is opaque to the server and modelled as a string). -/
structure UserPresence where
  userId : String
  profile : String
  cursor : CursorPos
  selection : Option SelectionR
  lastActive : Nat
  deriving DecidableEq, Repr

/-- The server's `RoomState`: per-user presence map plus the authoritative
room content. -/
structure RoomState where
  users : List (String × UserPresence)
  content : Str
  deriving DecidableEq, Repr

/-- The environment captured by one connection's handlers: the handshake
identifiers and a reference to the captured `room` object. -/
structure ConnInfo where
  projectId : String
  userId : String
  roomRef : Nat
  deriving DecidableEq, Repr

/-- The whole server state: the `rooms` map (room id to object reference),
the object heap (references are never reused), the connected sockets with
their captured environments, and the allocation counter. -/
structure SrvState where
  rooms : List (String × Nat)
  heap : List (Nat × RoomState)
  conns : List (Nat × ConnInfo)
  nextRef : Nat
  deriving DecidableEq, Repr

inductive SrvEvent where
  | connect (sid : Nat) (projectId userId profile : Option String) (now : Nat)
  | cursor (sid : Nat) (position : CursorPos) (selection : Option SelectionR) (now : Nat)
  | change (sid : Nat) (msg : ChangeMsg)
  | disconnect (sid : Nat)
  deriving DecidableEq, Repr

inductive SrvOut where
  | presence (recipients : List Nat) (payload : List UserPresence)
  | changeRelay (recipients : List Nat) (payload : ChangeMsg)
  | terminate (sid : Nat)
  deriving DecidableEq, Repr

/-- JavaScript falsiness of an optional handshake query value: absent or
the empty string. -/
def falsy : Option String → Bool
  | none => true
  | some s => decide (s = "")

/-- The sockets currently joined to the socket.io room `r`
(`io.to(r)` delivery set). -/
def members (conns : List (Nat × ConnInfo)) (r : String) : List Nat :=
  (conns.filter (fun p => decide (p.2.projectId = r))).map (fun p => p.1)

/-- One event handled by the socket server of the collaboration relay:
the `connection`, `cursor`, `change` and `disconnect` handlers, with the
broadcasts they emit. -/
def srvStep (st : SrvState) (e : SrvEvent) : SrvState × List SrvOut :=
  match e with
  | .connect sid pid uid prof now =>
    if falsy pid || falsy uid || falsy prof then (st, [.terminate sid])
    else
      let pid := pid.getD ""
      let uid := uid.getD ""
      let prof := prof.getD ""
      let init :=
        match alGet st.rooms pid with
        | some ref => (st.rooms, st.heap, ref, st.nextRef)
        | none =>
          (alSet st.rooms pid st.nextRef,
           alSet st.heap st.nextRef ⟨[], []⟩, st.nextRef, st.nextRef + 1)
      let rooms1 := init.1
      let heap1 := init.2.1
      let ref := init.2.2.1
      let next1 := init.2.2.2
      let conns1 := alSet st.conns sid ⟨pid, uid, ref⟩
      let heap2 :=
        match alGet heap1 ref with
        | some room =>
          alSet heap1 ref
            { room with users := alSet room.users uid ⟨uid, prof, ⟨0, 0⟩, none, now⟩ }
        | none => heap1
      let st1 : SrvState := ⟨rooms1, heap2, conns1, next1⟩
      let payload :=
        match alGet heap2 ref with
        | some room => alValues room.users
        | none => []
      (st1, [.presence (members st1.conns pid) payload])
  | .cursor sid pos sel now =>
    match alGet st.conns sid with
    | none => (st, [])
    | some ci =>
      match alGet st.heap ci.roomRef with
      | none => (st, [])
      | some room =>
        match alGet room.users ci.userId with
        | none => (st, [])
        | some u =>
          let u1 := { u with cursor := pos, selection := sel, lastActive := now }
          let room1 := { room with users := alSet room.users ci.userId u1 }
          let st1 := { st with heap := alSet st.heap ci.roomRef room1 }
          (st1, [.presence (members st1.conns ci.projectId) (alValues room1.users)])
  | .change sid msg =>
    match alGet st.conns sid with
    | none => (st, [])
    | some ci =>
      let outs := [SrvOut.changeRelay
        ((members st.conns ci.projectId).filter (fun x => decide (x ≠ sid))) msg]
      match msg.text with
      | none => (st, outs)
      | some t =>
        match alGet st.heap ci.roomRef with
        | none => (st, outs)
        | some room =>
          match applyChange room.content ⟨msg.range, t⟩ with
          | none => (st, outs)
          | some c1 =>
            ({ st with heap := alSet st.heap ci.roomRef { room with content := c1 } },
             outs)
  | .disconnect sid =>
    match alGet st.conns sid with
    | none => (st, [])
    | some ci =>
      let conns1 := alDel st.conns sid
      match alGet st.heap ci.roomRef with
      | none => ({ st with conns := conns1 }, [])
      | some room =>
        let room1 := { room with users := alDel room.users ci.userId }
        let heap1 := alSet st.heap ci.roomRef room1
        let rooms1 :=
          if room1.users.length = 0 then alDel st.rooms ci.projectId else st.rooms
        let st1 : SrvState := ⟨rooms1, heap1, conns1, st.nextRef⟩
        (st1, [.presence (members st1.conns ci.projectId) (alValues room1.users)])

inductive FileOpType where
  | create
  | update
  | delete
  | move
  | rename
  deriving DecidableEq, Repr

structure FileNode where
  path : String
  content : String
  deriving DecidableEq, Repr

structure FileOperation where
  type : FileOpType
  file : FileNode
  previousPath : Option String
  userId : String
  timestamp : Nat
  deriving DecidableEq, Repr

/-- The mutable fields of `SharedFileSystem` that drive `processOperation`,
plus the observable application order: `inFlight` is the operation whose
`applyOperation` call has been started and not yet awaited to completion,
`applied` the operations already applied, in order. -/
structure QueueState where
  operationQueue : List FileOperation
  isProcessing : Bool
  inFlight : Option FileOperation
  applied : List FileOperation
  deriving DecidableEq, Repr

/-- Events at the queue's `await` boundaries: a `file_operation` arrival
(running `processOperation` up to its first `await`), and the completion
of the in-flight `applyOperation` (resuming the drain loop). -/
inductive QEvent where
  | arrive (op : FileOperation)
  | complete
  deriving DecidableEq, Repr

/-- `processOperation`: push the operation; if no drain loop is running,
start one, which shifts the queue head and starts applying it.  On
completion of an `applyOperation`, the loop shifts the next head or, when
the queue is empty, clears `isProcessing`. -/
def processStep (s : QueueState) (e : QEvent) : QueueState :=
  match e with
  | .arrive op =>
    let q := s.operationQueue ++ [op]
    if s.isProcessing then { s with operationQueue := q }
    else
      match q with
      | [] => { s with operationQueue := [] }
      | h :: t => ⟨t, true, some h, s.applied⟩
  | .complete =>
    match s.inFlight with
    | none => s
    | some op =>
      match s.operationQueue with
      | [] => ⟨[], false, none, s.applied ++ [op]⟩
      | h :: t => ⟨t, s.isProcessing, some h, s.applied ++ [op]⟩

def runQ (s : QueueState) : List QEvent → QueueState
  | [] => s
  | e :: es => runQ (processStep s e) es

def arrivals : List QEvent → List FileOperation
  | [] => []
  | QEvent.arrive op :: es => op :: arrivals es
  | QEvent.complete :: es => arrivals es

/-- The initial queue state (`operationQueue = []`, `isProcessing = false`). -/
def q0 : QueueState := ⟨[], false, none, []⟩

def inFlightList : Option FileOperation → List FileOperation
  | none => []
  | some op => [op]

/-- The participant ids of the sockets currently connected to room `r`. -/
def roomUids (conns : List (Nat × ConnInfo)) (r : String) : List String :=
  (conns.filter (fun p => decide (p.2.projectId = r))).map (fun p => p.2.userId)

/-- The keys of a JavaScript map. -/
def alKeys {κ α : Type} (m : List (κ × α)) : List κ := m.map (fun p => p.1)

/-- Every presence record in a users map is stored under its own
`userId` (as the server's `room.users.set(userId, { userId, ... })` does). -/
def usersWellTagged (m : List (String × UserPresence)) : Prop :=
  ∀ p ∈ m, p.2.userId = p.1

instance (m : List (String × UserPresence)) : Decidable (usersWellTagged m) := by
  unfold usersWellTagged
  infer_instance

/-! ### Theorems -/

theorem splitLines_cons_newline (rest : Str) :
    splitLines ('\n' :: rest) = [] :: splitLines rest := by
  simp [splitLines]

theorem splitLines_cons_ne (c : Char) (rest : Str) (hc : c ≠ '\n') :
    splitLines (c :: rest) =
      (c :: (splitLines rest).headI) :: (splitLines rest).tail := by
  simp [splitLines, hc]

theorem splitLines_ne_nil (s : Str) : splitLines s ≠ [] := by
  cases s with
  | nil => simp [splitLines]
  | cons c rest => simp only [splitLines]; split <;> simp

theorem joinLines_cons_cons (a b : Str) (ls : List Str) :
    joinLines (a :: b :: ls) = a ++ '\n' :: joinLines (b :: ls) := rfl

theorem joinLines_append (a b : List Str) (ha : a ≠ []) (hb : b ≠ []) :
    joinLines (a ++ b) = joinLines a ++ '\n' :: joinLines b := by
  induction a with
  | nil => exact absurd rfl ha
  | cons x t ih =>
    cases t with
    | nil =>
      cases b with
      | nil => exact absurd rfl hb
      | cons y u => simp [joinLines_cons_cons, joinLines]
    | cons y u =>
      have h2 : joinLines ((y :: u) ++ b) = joinLines (y :: u) ++ '\n' :: joinLines b :=
        ih (by simp)
      calc joinLines ((x :: y :: u) ++ b)
          = x ++ '\n' :: joinLines ((y :: u) ++ b) := rfl
        _ = x ++ '\n' :: (joinLines (y :: u) ++ '\n' :: joinLines b) := by rw [h2]
        _ = (x ++ '\n' :: joinLines (y :: u)) ++ '\n' :: joinLines b := by simp
        _ = joinLines (x :: y :: u) ++ '\n' :: joinLines b := rfl

theorem joinLines_splitLines (s : Str) : joinLines (splitLines s) = s := by
  induction s with
  | nil => rfl
  | cons c rest ih =>
    by_cases hc : c = '\n'
    · subst hc
      rw [splitLines_cons_newline]
      rcases h : splitLines rest with _ | ⟨l, ls⟩
      · exact absurd h (splitLines_ne_nil rest)
      · rw [h] at ih
        rw [joinLines_cons_cons, ← ih]
        simp [joinLines]
    · rw [splitLines_cons_ne c rest hc]
      rcases h : splitLines rest with _ | ⟨l, ls⟩
      · exact absurd h (splitLines_ne_nil rest)
      · rw [h] at ih
        cases ls with
        | nil => simpa [joinLines] using congrArg (c :: ·) ih
        | cons m ms =>
          rw [List.headI, List.tail_cons, joinLines_cons_cons]
          rw [joinLines_cons_cons] at ih
          simpa using congrArg (c :: ·) ih

theorem splitLines_of_not_mem (s : Str) (h : '\n' ∉ s) : splitLines s = [s] := by
  induction s with
  | nil => rfl
  | cons c rest ih =>
    have hc : c ≠ '\n' := fun hc => h (hc ▸ List.mem_cons_self c rest)
    have hr : '\n' ∉ rest := fun hr => h (List.mem_cons_of_mem c hr)
    rw [splitLines_cons_ne c rest hc, ih hr]
    rfl

theorem not_mem_of_mem_splitLines (s l : Str) (hl : l ∈ splitLines s) : '\n' ∉ l := by
  induction s generalizing l with
  | nil =>
    simp only [splitLines, List.mem_singleton] at hl
    simp [hl]
  | cons c rest ih =>
    by_cases hc : c = '\n'
    · subst hc
      rw [splitLines_cons_newline] at hl
      rcases List.mem_cons.mp hl with rfl | hl
      · simp
      · exact ih l hl
    · rw [splitLines_cons_ne c rest hc] at hl
      rcases h : splitLines rest with _ | ⟨m, ms⟩
      · exact absurd h (splitLines_ne_nil rest)
      · rw [h] at hl
        rcases List.mem_cons.mp hl with rfl | hl
        · intro hmem
          rcases List.mem_cons.mp hmem with h1 | h1
          · exact hc h1.symm
          · exact ih m (h ▸ List.mem_cons_self m ms) h1
        · exact ih l (h ▸ List.mem_cons_of_mem m hl)

theorem splitLines_append_cons (a b : Str) :
    splitLines (a ++ '\n' :: b) = splitLines a ++ splitLines b := by
  induction a with
  | nil => simp [splitLines, splitLines_cons_newline]
  | cons c a' ih =>
    by_cases hc : c = '\n'
    · subst hc
      rw [List.cons_append, splitLines_cons_newline, splitLines_cons_newline, ih]
      rfl
    · rw [List.cons_append, splitLines_cons_ne c _ hc, splitLines_cons_ne c a' hc, ih]
      rcases h : splitLines a' with _ | ⟨m, ms⟩
      · exact absurd h (splitLines_ne_nil a')
      · simp

theorem splitLines_joinLines (ls : List Str) (hne : ls ≠ [])
    (hnl : ∀ l ∈ ls, '\n' ∉ l) : splitLines (joinLines ls) = ls := by
  induction ls with
  | nil => exact absurd rfl hne
  | cons l t ih =>
    cases t with
    | nil => simpa [joinLines] using splitLines_of_not_mem l (hnl l (by simp))
    | cons m ms =>
      rw [joinLines_cons_cons, splitLines_append_cons]
      rw [splitLines_of_not_mem l (hnl l (by simp)),
        ih (by simp) (fun x hx => hnl x (List.mem_cons_of_mem l hx))]
      rfl

theorem splitLines_append_left (p x : Str) (hp : '\n' ∉ p) :
    splitLines (p ++ x) = mapHead (fun h => p ++ h) (splitLines x) := by
  induction p with
  | nil =>
    rcases h : splitLines x with _ | ⟨m, ms⟩
    · exact absurd h (splitLines_ne_nil x)
    · rw [List.nil_append, h]; simp [mapHead]
  | cons c p' ih =>
    have hc : c ≠ '\n' := fun hc => hp (hc ▸ List.mem_cons_self c p')
    have hp' : '\n' ∉ p' := fun hr => hp (List.mem_cons_of_mem c hr)
    rw [List.cons_append, splitLines_cons_ne c _ hc, ih hp']
    rcases h : splitLines x with _ | ⟨m, ms⟩
    · exact absurd h (splitLines_ne_nil x)
    · simp [mapHead]

theorem mapLast_cons_of_ne_nil (f : Str → Str) (h : Str) (t : List Str) (ht : t ≠ []) :
    mapLast f (h :: t) = h :: mapLast f t := by
  cases t with
  | nil => exact absurd rfl ht
  | cons y u => rfl

theorem splitLines_append_right (x q : Str) (hq : '\n' ∉ q) :
    splitLines (x ++ q) = mapLast (fun l => l ++ q) (splitLines x) := by
  induction x with
  | nil =>
    rw [List.nil_append, splitLines_of_not_mem q hq]
    rfl
  | cons c x' ih =>
    by_cases hc : c = '\n'
    · subst hc
      rw [List.cons_append, splitLines_cons_newline, splitLines_cons_newline, ih,
        mapLast_cons_of_ne_nil _ _ _ (splitLines_ne_nil x')]
    · rw [List.cons_append, splitLines_cons_ne c _ hc, splitLines_cons_ne c x' hc, ih]
      rcases h : splitLines x' with _ | ⟨m, ms⟩
      · exact absurd h (splitLines_ne_nil x')
      · cases ms <;> rfl

theorem mapLast_mapHead_comm (p q : Str) (l : List Str) :
    mapLast (fun s => s ++ q) (mapHead (fun h => p ++ h) l) =
      mapHead (fun h => p ++ h) (mapLast (fun s => s ++ q) l) := by
  cases l with
  | nil => rfl
  | cons x t =>
    cases t with
    | nil => simp [mapHead, mapLast, List.append_assoc]
    | cons y u => rfl

theorem clampI_coe (j len : Nat) (h : j ≤ len) : clampI (j : Int) len = j := by
  simp only [clampI]
  omega

theorem jsSubstring_take (s : Str) (j : Nat) (h : j ≤ s.length) :
    jsSubstring s 0 (j : Int) = s.take j := by
  simp only [jsSubstring]
  rw [show clampI 0 s.length = 0 by simp [clampI], clampI_coe j s.length h]
  simp

theorem jsSubstringFrom_drop (s : Str) (j : Nat) (h : j ≤ s.length) :
    jsSubstringFrom s (j : Int) = s.drop j := by
  simp only [jsSubstringFrom]
  rw [clampI_coe j s.length h]

theorem getI_coe {α : Type} (l : List α) (i : Nat) : getI l (i : Int) = l.get? i := by
  simp [getI]

theorem jsSplice_eq {α : Type} (l : List α) (i k : Nat) (items : List α)
    (hik : i ≤ k) (hk : k < l.length) :
    jsSplice l (i : Int) ((k : Int) - (i : Int) + 1) items =
      l.take i ++ items ++ l.drop (k + 1) := by
  simp only [jsSplice]
  rw [clampI_coe i l.length (by omega)]
  have h1 : (min (max ((k : Int) - (i : Int) + 1) 0) ((l.length : Int) - (i : Int))).toNat
      = k + 1 - i := by omega
  rw [h1]
  have h2 : i + (k + 1 - i) = k + 1 := by omega
  rw [h2]

theorem joinLines_singleton (m : Str) : joinLines [m] = m := rfl

theorem joinLines_middle (xs ys : List Str) (m : Str) :
    joinLines (xs ++ splitLines m ++ ys) = joinLines (xs ++ m :: ys) := by
  cases ys with
  | nil =>
    cases xs with
    | nil => simp [joinLines_splitLines, joinLines_singleton]
    | cons x xs' =>
      rw [List.append_nil,
        joinLines_append (x :: xs') (splitLines m) (by simp) (splitLines_ne_nil m),
        joinLines_splitLines,
        joinLines_append (x :: xs') [m] (by simp) (by simp), joinLines_singleton]
  | cons y ys' =>
    cases xs with
    | nil =>
      rw [List.nil_append, List.nil_append,
        joinLines_append (splitLines m) (y :: ys') (splitLines_ne_nil m) (by simp),
        joinLines_splitLines, joinLines_cons_cons]
    | cons x xs' =>
      rw [List.append_assoc,
        joinLines_append (x :: xs') _ (by simp)
          (fun hx => splitLines_ne_nil m (List.append_eq_nil.mp hx).1),
        joinLines_append (splitLines m) (y :: ys') (splitLines_ne_nil m) (by simp),
        joinLines_splitLines,
        joinLines_append (x :: xs') (m :: y :: ys') (by simp) (by simp),
        joinLines_cons_cons]

theorem get?_eq_some_getD (l : List Str) (i : Nat) (h : i < l.length) :
    l.get? i = some (l.getD i []) := by
  induction l generalizing i with
  | nil => simp at h
  | cons x t ih =>
    cases i with
    | zero => rfl
    | succ n =>
      simp only [List.length_cons, Nat.succ_lt_succ_iff] at h
      simpa [List.get?, List.getD] using ih n h

theorem getD_mem (l : List Str) (i : Nat) (h : i < l.length) : l.getD i [] ∈ l :=
  List.get?_mem (get?_eq_some_getD l i h)

theorem applyChange_rangeReplace (bs : List Str) (i j k jl : Nat) (t : Str)
    (hnl : ∀ l ∈ bs, '\n' ∉ l)
    (hik : i ≤ k) (hk : k < bs.length)
    (hj : j ≤ (bs.getD i []).length) (hjl : jl ≤ (bs.getD k []).length) :
    applyChange (joinLines bs)
      ⟨⟨(i : Int) + 1, (j : Int) + 1, (k : Int) + 1, (jl : Int) + 1⟩, t⟩ =
      some (joinLines (rangeReplaceSpec bs i j k jl t)) := by
  have hbs : bs ≠ [] := by intro h; rw [h] at hk; simp at hk
  have hsplit := splitLines_joinLines bs hbs hnl
  have hi1 : ((i : Int) + 1) - 1 = (i : Int) := by ring
  have hj1 : ((j : Int) + 1) - 1 = (j : Int) := by ring
  have hjl1 : ((jl : Int) + 1) - 1 = (jl : Int) := by ring
  have hk1 : ((k : Int) + 1) - 1 = (k : Int) := by ring
  have hik' : i < bs.length := lt_of_le_of_lt hik hk
  have hgeti : getI bs ((i : Int)) = some (bs.getD i []) := by
    rw [getI_coe]; exact get?_eq_some_getD bs i hik'
  have hgetk : getI bs ((k : Int)) = some (bs.getD k []) := by
    rw [getI_coe]; exact get?_eq_some_getD bs k hk
  have hpre : '\n' ∉ (bs.getD i []).take j :=
    fun hm => hnl (bs.getD i []) (getD_mem bs i hik') (List.take_subset j _ hm)
  have hsuf : '\n' ∉ (bs.getD k []).drop jl :=
    fun hm => hnl (bs.getD k []) (getD_mem bs k hk) (List.drop_subset jl _ hm)
  by_cases hik2 : i = k
  · subst hik2
    simp only [applyChange, hsplit, hi1, hj1, hjl1, if_pos rfl, hgeti,
      jsSubstring_take _ j hj, jsSubstringFrom_drop _ jl hjl, Int.toNat_natCast]
    rw [List.set_eq_take_cons_drop _ hik']
    rw [rangeReplaceSpec, joinLines_middle]
    simp
  · have hne : ((i : Int) + 1) ≠ ((k : Int) + 1) := by
      intro h; apply hik2; omega
    simp only [applyChange, hsplit, hi1, hj1, hjl1, hk1, if_neg hne, hgeti, hgetk,
      jsSubstring_take _ j hj, jsSubstringFrom_drop _ jl hjl]
    have harith : ((k : Int) + 1) - ((i : Int) + 1) + 1 = (k : Int) - (i : Int) + 1 := by ring
    rw [harith, jsSplice_eq bs i k _ hik hk]
    rw [rangeReplaceSpec, List.append_assoc ((bs.getD i []).take j) t ((bs.getD k []).drop jl)]
    rw [splitLines_append_left _ (t ++ (bs.getD k []).drop jl) hpre,
      splitLines_append_right t _ hsuf, mapLast_mapHead_comm]

theorem applyChange_none_of_line_oob (content : Str) (c : Change)
    (h : getI (splitLines content) (c.range.startLineNumber - 1) = none ∨
         getI (splitLines content) (c.range.endLineNumber - 1) = none) :
    applyChange content c = none := by
  rcases c with ⟨⟨sl, sc, el, ec⟩, t⟩
  simp only [applyChange]
  by_cases he : sl = el
  · subst he
    simp only at h
    rcases h with h | h <;> simp [h]
  · simp only at h
    cases hs : getI (splitLines content) (sl - 1) with
    | none => simp [he]
    | some v =>
      rcases h with h | h
      · exact absurd hs (by simp [h])
      · simp [he, h]

theorem getD_append_left {α : Type} (xs ys : List α) (n : Nat) (d : α)
    (h : n < xs.length) : (xs ++ ys).getD n d = xs.getD n d := by
  induction xs generalizing n with
  | nil => simp at h
  | cons x t ih =>
    cases n with
    | zero => rfl
    | succ m =>
      simp only [List.length_cons, Nat.succ_lt_succ_iff] at h
      simpa [List.getD] using ih m h

theorem getD_append_right {α : Type} (xs ys : List α) (n : Nat) (d : α)
    (h : xs.length ≤ n) : (xs ++ ys).getD n d = ys.getD (n - xs.length) d := by
  induction xs generalizing n with
  | nil => simp
  | cons x t ih =>
    cases n with
    | zero => simp at h
    | succ m =>
      simp only [List.length_cons, Nat.succ_le_succ_iff] at h
      simpa [List.getD] using ih m h

theorem take_getD_drop {α : Type} (l : List α) (i : Nat) (d : α) (h : i < l.length) :
    l.take i ++ l.getD i d :: l.drop (i + 1) = l := by
  induction l generalizing i with
  | nil => simp at h
  | cons x t ih =>
    cases i with
    | zero => rfl
    | succ m =>
      simp only [List.length_cons, Nat.succ_lt_succ_iff] at h
      simpa [List.getD] using ih m h

theorem mapHead_length (f : Str → Str) (l : List Str) :
    (mapHead f l).length = l.length := by
  cases l <;> rfl

theorem mapLast_length (f : Str → Str) (l : List Str) :
    (mapLast f l).length = l.length := by
  induction l with
  | nil => rfl
  | cons x t ih =>
    cases t with
    | nil => rfl
    | cons y u => simpa [mapLast] using ih

theorem mapHead_getD_zero (f : Str → Str) (l : List Str) (hl : l ≠ []) :
    (mapHead f l).getD 0 [] = f (l.getD 0 []) := by
  cases l with
  | nil => exact absurd rfl hl
  | cons x t => rfl

theorem getD_length_sub_one (l : List Str) (hl : l ≠ []) :
    l.getD (l.length - 1) [] = l.getLastD [] := by
  induction l with
  | nil => exact absurd rfl hl
  | cons x t ih =>
    cases t with
    | nil => rfl
    | cons y u =>
      have := ih (by simp)
      simpa [List.getD, List.getLastD_cons] using this

theorem mapLast_getLast? (f : Str → Str) (l : List Str) :
    (mapLast f l).getLast? = l.getLast?.map f := by
  induction l with
  | nil => rfl
  | cons x t ih =>
    cases t with
    | nil => rfl
    | cons y u =>
      rw [mapLast_cons_of_ne_nil f x (y :: u) (by simp)]
      rcases h : mapLast f (y :: u) with _ | ⟨m, ms⟩
      · have := mapLast_length f (y :: u); rw [h] at this; simp at this
      · rw [List.getLast?_cons_cons, ← h, ih, List.getLast?_cons_cons]

theorem mapHead_getLast? (f : Str → Str) (l : List Str) (hl : 2 ≤ l.length) :
    (mapHead f l).getLast? = l.getLast? := by
  cases l with
  | nil => simp at hl
  | cons x t =>
    cases t with
    | nil => simp at hl
    | cons y u => simp [mapHead, List.getLast?_cons_cons]

theorem insert_delete_id (s : Str) (i j : Nat) (t : Str)
    (hi : i < (splitLines s).length)
    (hj : j ≤ ((splitLines s).getD i []).length) :
    (applyChange s ⟨⟨(i : Int) + 1, (j : Int) + 1, (i : Int) + 1, (j : Int) + 1⟩, t⟩).bind
      (fun s1 => applyChange s1
        ⟨⟨(i : Int) + 1, (j : Int) + 1,
          ((i + ((splitLines t).length - 1) : Nat) : Int) + 1,
          ((spanEndCol j t : Nat) : Int) + 1⟩, []⟩) = some s := by
  have hnl0 : ∀ l ∈ splitLines s, '\n' ∉ l := fun l hl => not_mem_of_mem_splitLines s l hl
  rw [← joinLines_splitLines s]
  generalize hbs : splitLines s = bs at hnl0 hi hj ⊢
  rw [applyChange_rangeReplace bs i j i j t hnl0 (le_refl i) hi hj hj, Option.some_bind]
  simp only [rangeReplaceSpec]
  set pre := (bs.getD i []).take j with hpre_def
  set suf := (bs.getD i []).drop j with hsuf_def
  set M := splitLines (pre ++ t ++ suf) with hM_def
  set bs1 := bs.take i ++ M ++ bs.drop (i + 1) with hbs1_def
  have hm1 : 0 < (splitLines t).length := List.length_pos.mpr (splitLines_ne_nil t)
  have hprelen : pre.length = j := by rw [hpre_def, List.length_take]; omega
  have hpre_nl : '\n' ∉ pre :=
    fun hm2 => hnl0 _ (getD_mem bs i hi) (List.take_subset j _ hm2)
  have hsuf_nl : '\n' ∉ suf :=
    fun hm2 => hnl0 _ (getD_mem bs i hi) (List.drop_subset j _ hm2)
  have hMeq : M = mapHead (fun h => pre ++ h)
      (mapLast (fun l => l ++ suf) (splitLines t)) := by
    rw [hM_def, List.append_assoc, splitLines_append_left _ _ hpre_nl,
      splitLines_append_right t _ hsuf_nl]
  have hMlen : M.length = (splitLines t).length := by
    rw [hMeq, mapHead_length, mapLast_length]
  have hMne : M ≠ [] := hM_def ▸ splitLines_ne_nil _
  have hmlne : mapLast (fun l => l ++ suf) (splitLines t) ≠ [] := by
    intro hx
    have := mapLast_length (fun l => l ++ suf) (splitLines t)
    rw [hx] at this
    simp at this
    omega
  have htakelen : (bs.take i).length = i := by rw [List.length_take]; omega
  have hlen1 : bs1.length = i + M.length + (bs.length - (i + 1)) := by
    rw [hbs1_def]; simp [htakelen]; omega
  have hik1 : i ≤ i + ((splitLines t).length - 1) := Nat.le_add_right _ _
  have hk1 : i + ((splitLines t).length - 1) < bs1.length := by
    rw [hlen1, hMlen]; omega
  have hget_i : bs1.getD i [] = M.getD 0 [] := by
    rw [hbs1_def, List.append_assoc,
      getD_append_right (bs.take i) _ i [] (le_of_eq htakelen)]
    rw [htakelen, Nat.sub_self]
    exact getD_append_left M _ 0 [] (by rw [hMlen]; omega)
  have hj1 : j ≤ (bs1.getD i []).length := by
    rw [hget_i, hMeq, mapHead_getD_zero _ _ hmlne, List.length_append, hprelen]
    omega
  have hget_k : bs1.getD (i + ((splitLines t).length - 1)) [] = M.getLastD [] := by
    rw [hbs1_def, List.append_assoc,
      getD_append_right (bs.take i) _ _ [] (by rw [htakelen]; omega), htakelen]
    have hsub : i + ((splitLines t).length - 1) - i = (splitLines t).length - 1 := by omega
    rw [hsub, getD_append_left M _ _ [] (by rw [hMlen]; omega), ← hMlen]
    exact getD_length_sub_one M hMne
  have hlastM : ∃ w, M.getLastD [] = w ++ suf ∧ spanEndCol j t = w.length := by
    by_cases h1 : (splitLines t).length = 1
    · have ht1 : splitLines t = [t] := by
        rcases hsplit : splitLines t with _ | ⟨x, xs⟩
        · exact absurd hsplit (splitLines_ne_nil t)
        · rw [hsplit] at h1
          simp only [List.length_cons, Nat.add_left_eq_self, List.length_eq_zero] at h1
          subst h1
          have hjt := joinLines_splitLines t
          rw [hsplit, joinLines_singleton] at hjt
          rw [hjt]
      refine ⟨pre ++ t, ?_, ?_⟩
      · rw [hMeq, ht1]
        simp [mapLast, mapHead, List.getLastD, List.append_assoc]
      · simp only [spanEndCol, if_pos h1, List.length_append, hprelen]
    · obtain ⟨v, hv⟩ : ∃ v, (splitLines t).getLast? = some v := by
        rcases hTl : (splitLines t).getLast? with _ | v
        · rw [List.getLast?_eq_none_iff] at hTl
          exact absurd hTl (splitLines_ne_nil t)
        · exact ⟨v, rfl⟩
      refine ⟨v, ?_, ?_⟩
      · rw [List.getLastD_eq_getLast?, hMeq,
          mapHead_getLast? _ _ (by rw [mapLast_length]; omega),
          mapLast_getLast?, hv]
        rfl
      · simp only [spanEndCol, if_neg h1]
        rw [List.getLastD_eq_getLast?, hv, Option.getD_some]
  obtain ⟨w, hw1, hw2⟩ := hlastM
  have hjl1 : spanEndCol j t ≤ (bs1.getD (i + ((splitLines t).length - 1)) []).length := by
    rw [hget_k, hw1, hw2, List.length_append]
    omega
  have hnl1 : ∀ l ∈ bs1, '\n' ∉ l := by
    intro l hl
    rw [hbs1_def] at hl
    rcases List.mem_append.mp hl with hl2 | hl2
    · rcases List.mem_append.mp hl2 with hl3 | hl3
      · exact hnl0 l (List.take_subset i bs hl3)
      · exact not_mem_of_mem_splitLines _ l (hM_def ▸ hl3)
    · exact hnl0 l (List.drop_subset _ bs hl2)
  rw [applyChange_rangeReplace bs1 i j (i + ((splitLines t).length - 1))
    (spanEndCol j t) [] hnl1 hik1 hk1 hj1 hjl1]
  congr 1
  have hmid_pre : (bs1.getD i []).take j = pre := by
    rw [hget_i, hMeq, mapHead_getD_zero _ _ hmlne]
    exact List.take_left' hprelen
  have hmid_suf : (bs1.getD (i + ((splitLines t).length - 1)) []).drop (spanEndCol j t)
      = suf := by
    rw [hget_k, hw1, hw2]
    exact List.drop_left' rfl
  have hp1 : bs1.take i = bs.take i := by
    rw [hbs1_def, List.append_assoc]
    exact List.take_left' htakelen
  have hp3 : bs1.drop (i + ((splitLines t).length - 1) + 1) = bs.drop (i + 1) := by
    rw [hbs1_def]
    have hlen2 : (bs.take i ++ M).length = i + ((splitLines t).length - 1) + 1 := by
      rw [List.length_append, htakelen, hMlen]
      omega
    exact List.drop_left' hlen2
  rw [rangeReplaceSpec, hmid_pre, hmid_suf, hp1, hp3, List.append_nil,
    splitLines_of_not_mem (pre ++ suf)
      (fun hm2 => (List.mem_append.mp hm2).elim hpre_nl hsuf_nl)]
  rw [hpre_def, hsuf_def, List.take_append_drop]
  exact congrArg joinLines (by simpa using take_getD_drop bs i [] hi)

theorem alGet_mem {κ α : Type} [DecidableEq κ] (m : List (κ × α)) (k : κ) (v : α)
    (h : alGet m k = some v) : (k, v) ∈ m := by
  induction m with
  | nil => simp [alGet] at h
  | cons p rest ih =>
    by_cases hp : p.1 = k
    · have heq : alGet (p :: rest) k = some p.2 := by
        simp [alGet, List.find?_cons, hp]
      have hv : v = p.2 := Option.some_inj.mp (h.symm.trans heq)
      have hkv : (k, v) = p := by
        cases p with
        | mk k1 v1 =>
          simp only at hp hv
          rw [hp, hv]
      rw [hkv]
      exact List.mem_cons_self p rest
    · rw [show alGet (p :: rest) k = alGet rest k by simp [alGet, List.find?_cons, hp]] at h
      exact List.mem_cons_of_mem p (ih h)

theorem alGet_alSet_self {κ α : Type} [DecidableEq κ] (m : List (κ × α)) (k : κ) (v : α) :
    alGet (alSet m k v) k = some v := by
  induction m with
  | nil => simp [alSet, alGet]
  | cons p rest ih =>
    by_cases hp : p.1 = k
    · simp [alSet, hp, alGet]
    · rw [alSet, if_neg hp,
        show alGet (p :: alSet rest k v) k = alGet (alSet rest k v) k by
          simp [alGet, List.find?_cons, hp]]
      exact ih

theorem alSet_alSet_self {κ α : Type} [DecidableEq κ] (m : List (κ × α)) (k : κ) (v w : α) :
    alSet (alSet m k v) k w = alSet m k w := by
  induction m with
  | nil => simp [alSet]
  | cons p rest ih =>
    by_cases hp : p.1 = k
    · simp [alSet, hp]
    · simp [alSet, hp, ih]

theorem alGet_alDel_self {κ α : Type} [DecidableEq κ] (m : List (κ × α)) (k : κ) :
    alGet (alDel m k) k = none := by
  induction m with
  | nil => rfl
  | cons p rest ih =>
    by_cases hp : p.1 = k
    · rw [show alDel (p :: rest) k = alDel rest k by simp [alDel, List.filter_cons, hp]]
      exact ih
    · rw [show alDel (p :: rest) k = p :: alDel rest k by simp [alDel, List.filter_cons, hp],
        show alGet (p :: alDel rest k) k = alGet (alDel rest k) k by
          simp [alGet, List.find?_cons, hp]]
      exact ih

theorem alSet_of_alGet_none {κ α : Type} [DecidableEq κ] (m : List (κ × α)) (k : κ) (v : α)
    (h : alGet m k = none) : alSet m k v = m ++ [(k, v)] := by
  induction m with
  | nil => rfl
  | cons p rest ih =>
    by_cases hp : p.1 = k
    · simp [alGet, List.find?_cons, hp] at h
    · rw [show alGet (p :: rest) k = alGet rest k by simp [alGet, List.find?_cons, hp]] at h
      simp [alSet, hp, ih h]

theorem alKeys_alSet_of_mem {κ α : Type} [DecidableEq κ] (m : List (κ × α)) (k : κ)
    (v w : α) (h : alGet m k = some v) : alKeys (alSet m k w) = alKeys m := by
  induction m with
  | nil => simp [alGet] at h
  | cons p rest ih =>
    by_cases hp : p.1 = k
    · simp [alSet, hp, alKeys]
    · rw [show alGet (p :: rest) k = alGet rest k by simp [alGet, List.find?_cons, hp]] at h
      simp [alSet, hp, alKeys] at ih ⊢
      exact ih h

theorem alValues_map_userId (m : List (String × UserPresence))
    (h : usersWellTagged m) : (alValues m).map (fun u => u.userId) = alKeys m := by
  induction m with
  | nil => rfl
  | cons p rest ih =>
    simp only [alValues, alKeys, List.map_cons, List.map_map] at ih ⊢
    rw [h p (List.mem_cons_self p rest)]
    have := ih (fun q hq => h q (List.mem_cons_of_mem p hq))
    simp only [alValues, alKeys, List.map_map] at this
    rw [this]

theorem usersWellTagged_alSet (m : List (String × UserPresence)) (k : String)
    (w : UserPresence) (hm : usersWellTagged m) (hw : w.userId = k) :
    usersWellTagged (alSet m k w) := by
  induction m with
  | nil =>
    intro p hp
    simp only [alSet, List.mem_singleton] at hp
    rw [hp]
    exact hw
  | cons q rest ih =>
    by_cases hq : q.1 = k
    · intro p hp
      simp only [alSet, if_pos hq, List.mem_cons] at hp
      rcases hp with rfl | hp
      · exact hw
      · exact hm p (List.mem_cons_of_mem q hp)
    · intro p hp
      simp only [alSet, if_neg hq, List.mem_cons] at hp
      rcases hp with rfl | hp
      · exact hm p (List.mem_cons_self p rest)
      · exact ih (fun r hr => hm r (List.mem_cons_of_mem q hr)) p hp

theorem usersWellTagged_alDel (m : List (String × UserPresence)) (k : String)
    (hm : usersWellTagged m) : usersWellTagged (alDel m k) :=
  fun p hp => hm p (List.mem_of_mem_filter hp)

theorem alKeys_perm_alDel {κ α : Type} [DecidableEq κ] (m : List (κ × α)) (k : κ) (v : α)
    (hmem : (k, v) ∈ m) (hnd : (alKeys m).Nodup) :
    (alKeys m).Perm (k :: alKeys (alDel m k)) := by
  induction m with
  | nil => simp at hmem
  | cons p rest ih =>
    have hnd2 := List.nodup_cons.mp hnd
    rcases List.mem_cons.mp hmem with rfl | hmem2
    · have hknd : k ∉ alKeys rest := hnd2.1
      have hdel : alDel ((k, v) :: rest) k = alDel rest k := by
        simp [alDel, List.filter_cons]
      rw [hdel]
      have hsame : alDel rest k = rest := by
        apply List.filter_eq_self.mpr
        intro q hq
        simp only [decide_eq_true_eq]
        intro hqk
        exact hknd (by rw [← hqk]; exact List.mem_map_of_mem (fun r => r.1) hq)
      rw [hsame]
      exact List.Perm.refl _
    · have hkrest : k ∈ alKeys rest := List.mem_map_of_mem (fun r => r.1) hmem2
      have hp_ne : p.1 ≠ k := by
        intro hpk
        refine hnd2.1 ?_
        show p.1 ∈ List.map (fun q => q.1) rest
        rw [hpk]
        exact hkrest
      have hdel : alDel (p :: rest) k = p :: alDel rest k := by
        simp [alDel, List.filter_cons, hp_ne]
      rw [hdel]
      have ihp := ih hmem2 hnd2.2
      have h1 : (alKeys (p :: rest)).Perm (p.1 :: k :: alKeys (alDel rest k)) := ihp.cons p.1
      have h2 : (p.1 :: k :: alKeys (alDel rest k)).Perm
          (k :: p.1 :: alKeys (alDel rest k)) := List.Perm.swap k p.1 _
      exact h1.trans h2

theorem exists_of_mem_alKeys {κ α : Type} (m : List (κ × α)) (k : κ)
    (h : k ∈ alKeys m) : ∃ v, (k, v) ∈ m := by
  rcases List.mem_map.mp h with ⟨p, hp, hpk⟩
  exact ⟨p.2, by rw [← hpk]; exact hp⟩

theorem roomUids_append_conn (conns : List (Nat × ConnInfo)) (sid : Nat) (ci : ConnInfo)
    (r : String) (hr : ci.projectId = r) :
    roomUids (conns ++ [(sid, ci)]) r = roomUids conns r ++ [ci.userId] := by
  simp [roomUids, List.filter_append, hr]

theorem members_append_conn (conns : List (Nat × ConnInfo)) (sid : Nat) (ci : ConnInfo)
    (r : String) (hr : ci.projectId = r) :
    members (conns ++ [(sid, ci)]) r = members conns r ++ [sid] := by
  simp [members, List.filter_append, hr]

theorem mem_members (conns : List (Nat × ConnInfo)) (sid : Nat) (ci : ConnInfo)
    (r : String) (hmem : (sid, ci) ∈ conns) (hr : ci.projectId = r) :
    sid ∈ members conns r := by
  refine List.mem_map_of_mem (fun p => p.1) (List.mem_filter.mpr ⟨hmem, ?_⟩)
  show decide (ci.projectId = r) = true
  rw [hr]
  simp

theorem roomUids_perm_alDel (conns : List (Nat × ConnInfo)) (sid : Nat) (ci : ConnInfo)
    (hmem : (sid, ci) ∈ conns) (hnd : (alKeys conns).Nodup) :
    (roomUids conns ci.projectId).Perm
      (ci.userId :: roomUids (alDel conns sid) ci.projectId) := by
  induction conns with
  | nil => simp at hmem
  | cons p rest ih =>
    have hnd2 := List.nodup_cons.mp hnd
    rcases List.mem_cons.mp hmem with rfl | hmem2
    · have hknd : sid ∉ alKeys rest := hnd2.1
      have hdel : alDel ((sid, ci) :: rest) sid = alDel rest sid := by
        simp [alDel, List.filter_cons]
      have hsame : alDel rest sid = rest := by
        apply List.filter_eq_self.mpr
        intro q hq
        simp only [decide_eq_true_eq]
        intro hqk
        exact hknd (by rw [← hqk]; exact List.mem_map_of_mem (fun r2 => r2.1) hq)
      rw [hdel, hsame]
      have hfil : roomUids ((sid, ci) :: rest) ci.projectId =
          ci.userId :: roomUids rest ci.projectId := by
        simp [roomUids, List.filter_cons]
      rw [hfil]
    · have hkrest : sid ∈ alKeys rest := List.mem_map_of_mem (fun r2 => r2.1) hmem2
      have hp_ne : p.1 ≠ sid := by
        intro hpk
        refine hnd2.1 ?_
        show p.1 ∈ List.map (fun q => q.1) rest
        rw [hpk]
        exact hkrest
      have hdel : alDel (p :: rest) sid = p :: alDel rest sid := by
        simp [alDel, List.filter_cons, hp_ne]
      rw [hdel]
      have ihp := ih hmem2 hnd2.2
      by_cases hpr : p.2.projectId = ci.projectId
      · have h1 : roomUids (p :: rest) ci.projectId =
            p.2.userId :: roomUids rest ci.projectId := by
          simp [roomUids, List.filter_cons, hpr]
        have h2 : roomUids (p :: alDel rest sid) ci.projectId =
            p.2.userId :: roomUids (alDel rest sid) ci.projectId := by
          simp [roomUids, List.filter_cons, hpr]
        rw [h1, h2]
        exact (ihp.cons p.2.userId).trans (List.Perm.swap ci.userId p.2.userId _)
      · have h1 : roomUids (p :: rest) ci.projectId = roomUids rest ci.projectId := by
          simp [roomUids, List.filter_cons, hpr]
        have h2 : roomUids (p :: alDel rest sid) ci.projectId =
            roomUids (alDel rest sid) ci.projectId := by
          simp [roomUids, List.filter_cons, hpr]
        rw [h1, h2]
        exact ihp

theorem alGet_none_of_not_mem_keys {κ α : Type} [DecidableEq κ] (m : List (κ × α))
    (k : κ) (h : k ∉ alKeys m) : alGet m k = none := by
  induction m with
  | nil => rfl
  | cons p rest ih =>
    have hp : p.1 ≠ k := by
      intro hpk
      exact h (by rw [← hpk]; exact List.mem_cons_self p.1 (alKeys rest))
    rw [show alGet (p :: rest) k = alGet rest k by simp [alGet, List.find?_cons, hp]]
    exact ih (fun hk => h (List.mem_cons_of_mem p.1 hk))

theorem alKeys_append_single {κ α : Type} (m : List (κ × α)) (k : κ) (v : α) :
    alKeys (m ++ [(k, v)]) = alKeys m ++ [k] := by
  simp [alKeys]

theorem mem_roomUids (conns : List (Nat × ConnInfo)) (sid : Nat) (ci : ConnInfo)
    (hmem : (sid, ci) ∈ conns) : ci.userId ∈ roomUids conns ci.projectId := by
  refine List.mem_map_of_mem (fun p => p.2.userId) (List.mem_filter.mpr ⟨hmem, ?_⟩)
  show decide (ci.projectId = ci.projectId) = true
  simp

/-- Claim C9: a connection handshake missing any of the three required
parameters (room id, participant id, profile) — or carrying an empty
string, which JavaScript treats identically as falsy — is terminated
immediately with no partial attach: the server state is completely
unchanged (no room created, no participant added, no presence seeded). -/
theorem c9_handshake_error (st : SrvState) (sid : Nat)
    (pid uid prof : Option String) (now : Nat)
    (h : (falsy pid || falsy uid || falsy prof) = true) :
    srvStep st (.connect sid pid uid prof now) = (st, [.terminate sid]) := by
  simp [srvStep, h]

/-- Witness for C9 at a concrete handshake with a missing participant id. -/
theorem c9_handshake_error_witness :
    srvStep ⟨[], [], [], 0⟩ (.connect 7 (some "p") none (some "f") 3) =
      (⟨[], [], [], 0⟩, [.terminate 7]) :=
  c9_handshake_error ⟨[], [], [], 0⟩ 7 (some "p") none (some "f") 3 (by decide)

/-- Claim C10: an incoming change event is relayed, unchanged, to the other
members of the room no matter what its `text` field holds (the relay comes
first and does not depend on the buffer update); when `text` is not a
string, the server state — in particular the room's authoritative
buffer — is left completely unchanged. -/
theorem c10_relay_before_apply (st : SrvState) (sid : Nat) (ci : ConnInfo)
    (msg : ChangeMsg) (hconn : alGet st.conns sid = some ci) :
    (srvStep st (.change sid msg)).2 =
      [.changeRelay ((members st.conns ci.projectId).filter
        (fun x => decide (x ≠ sid))) msg] ∧
    (msg.text = none → srvStep st (.change sid msg) =
      (st, [.changeRelay ((members st.conns ci.projectId).filter
        (fun x => decide (x ≠ sid))) msg])) := by
  constructor
  · simp only [srvStep, hconn]
    cases htext : msg.text with
    | none => rfl
    | some t =>
      cases hroom : alGet st.heap ci.roomRef with
      | none => simp [hroom]
      | some room =>
        cases happ : applyChange room.content ⟨msg.range, t⟩ with
        | none => simp [hroom, happ]
        | some c1 => simp [hroom, happ]
  · intro htext
    simp only [srvStep, hconn, htext]

/-- Witness for C10: a non-string `text` is still relayed to the other
member and the state is untouched. -/
theorem c10_relay_before_apply_witness :
    (srvStep ⟨[("p", 0)], [(0, ⟨[], []⟩)],
        [(0, ⟨"p", "u", 0⟩), (1, ⟨"p", "v", 0⟩)], 1⟩
      (.change 0 ⟨⟨1, 1, 1, 1⟩, none⟩)).2 =
      [.changeRelay [1] ⟨⟨1, 1, 1, 1⟩, none⟩] := by
  have h := c10_relay_before_apply ⟨[("p", 0)], [(0, ⟨[], []⟩)],
    [(0, ⟨"p", "u", 0⟩), (1, ⟨"p", "v", 0⟩)], 1⟩ 0 ⟨"p", "u", 0⟩
    ⟨⟨1, 1, 1, 1⟩, none⟩ (by decide)
  exact h.1.trans (by decide)

/-- Claim C2 (amended): the server performs no bounds validation of a
change's range.  When a start or end line index lies outside the buffer,
the apply dereferences `undefined` and throws (modelled as `none`), so the
edit is dropped with the buffer — indeed the whole server state —
unchanged, while the relay to the other members has already been sent;
there is no `InvalidRange` result.  A column beyond a line's length is not
an error at all: `substring` clamps it and the edit is applied (see the
counterexample). -/
theorem c2_no_validation_line_oob (st : SrvState) (sid : Nat) (ci : ConnInfo)
    (room : RoomState) (msg : ChangeMsg) (t : Str)
    (hconn : alGet st.conns sid = some ci)
    (hroom : alGet st.heap ci.roomRef = some room)
    (htext : msg.text = some t)
    (hoob : getI (splitLines room.content) (msg.range.startLineNumber - 1) = none ∨
            getI (splitLines room.content) (msg.range.endLineNumber - 1) = none) :
    applyChange room.content ⟨msg.range, t⟩ = none ∧
    srvStep st (.change sid msg) =
      (st, [.changeRelay ((members st.conns ci.projectId).filter
        (fun x => decide (x ≠ sid))) msg]) := by
  have happ := applyChange_none_of_line_oob room.content ⟨msg.range, t⟩ hoob
  refine ⟨happ, ?_⟩
  simp only [srvStep, hconn, htext, hroom, happ]

/-- Witness for the amended C2: an edit addressing line 3 of a one-line
buffer is dropped and the state survives unchanged. -/
theorem c2_no_validation_line_oob_witness :
    applyChange ['a', 'b'] ⟨⟨3, 1, 3, 1⟩, ['X']⟩ = none ∧
    srvStep ⟨[("p", 0)], [(0, ⟨[], ['a', 'b']⟩)], [(0, ⟨"p", "u", 0⟩)], 1⟩
        (.change 0 ⟨⟨3, 1, 3, 1⟩, some ['X']⟩) =
      (⟨[("p", 0)], [(0, ⟨[], ['a', 'b']⟩)], [(0, ⟨"p", "u", 0⟩)], 1⟩,
       [.changeRelay [] ⟨⟨3, 1, 3, 1⟩, some ['X']⟩]) := by
  have h := c2_no_validation_line_oob
    ⟨[("p", 0)], [(0, ⟨[], ['a', 'b']⟩)], [(0, ⟨"p", "u", 0⟩)], 1⟩
    0 ⟨"p", "u", 0⟩ ⟨[], ['a', 'b']⟩ ⟨⟨3, 1, 3, 1⟩, some ['X']⟩ ['X']
    (by decide) (by decide) rfl (by decide)
  exact ⟨h.1, h.2.trans (by decide)⟩

/-- Counterexample to C2 as stated: the change with range (1,5)-(1,6)
addresses columns beyond the two-character line of the room buffer, yet
it does not fail with `InvalidRange` and the buffer is NOT left unchanged:
the out-of-range columns are clamped by `substring` and the edit is
applied, turning the buffer from `"ab"` into `"abX"`. -/
theorem c2_counterexample :
    (alGet (srvStep ⟨[("p", 0)],
        [(0, ⟨[("u", ⟨"u", "pr", ⟨0, 0⟩, none, 0⟩)], ['a', 'b']⟩)],
        [(0, ⟨"p", "u", 0⟩)], 1⟩
        (.change 0 ⟨⟨1, 5, 1, 6⟩, some ['X']⟩)).1.heap 0).map
      (fun r => r.content) = some ['a', 'b', 'X'] := by
  decide

/-- Claim C8: fan-out discipline.  A change event is relayed via
`socket.to(room)`: it reaches exactly the sockets of the room other than
the origin (the origin is excluded, every other member included).  A
presence snapshot (here after a cursor update) is emitted via
`io.to(room)`: it reaches every member of the room, origin included. -/
theorem c8_fanout (st : SrvState) (sid : Nat) (ci : ConnInfo) (msg : ChangeMsg)
    (pos : CursorPos) (sel : Option SelectionR) (now : Nat)
    (room : RoomState) (u : UserPresence)
    (hconn : alGet st.conns sid = some ci)
    (hroom : alGet st.heap ci.roomRef = some room)
    (huser : alGet room.users ci.userId = some u) :
    ((srvStep st (.change sid msg)).2 =
        [.changeRelay ((members st.conns ci.projectId).filter
          (fun x => decide (x ≠ sid))) msg] ∧
      sid ∉ (members st.conns ci.projectId).filter (fun x => decide (x ≠ sid)) ∧
      ∀ x ∈ members st.conns ci.projectId, x ≠ sid →
        x ∈ (members st.conns ci.projectId).filter (fun x => decide (x ≠ sid))) ∧
    ((srvStep st (.cursor sid pos sel now)).2 =
        [.presence (members st.conns ci.projectId)
          (alValues (alSet room.users ci.userId
            { u with cursor := pos, selection := sel, lastActive := now }))] ∧
      sid ∈ members st.conns ci.projectId) := by
  refine ⟨⟨?_, ?_, ?_⟩, ?_, ?_⟩
  · simp only [srvStep, hconn]
    cases htext : msg.text with
    | none => rfl
    | some t =>
      cases hroom2 : alGet st.heap ci.roomRef with
      | none => simp [hroom2]
      | some room2 =>
        cases happ : applyChange room2.content ⟨msg.range, t⟩ with
        | none => simp [hroom2, happ]
        | some c1 => simp [hroom2, happ]
  · intro hmem
    have := (List.mem_filter.mp hmem).2
    simp at this
  · intro x hx hxne
    exact List.mem_filter.mpr ⟨hx, by simpa using hxne⟩
  · simp only [srvStep, hconn, hroom, huser]
  · exact mem_members st.conns sid ci ci.projectId (alGet_mem st.conns sid ci hconn) rfl

/-- Witness for C8 on a two-member room: the change relay reaches only the
other socket, the presence snapshot reaches both. -/
theorem c8_fanout_witness :
    (srvStep ⟨[("p", 0)],
        [(0, ⟨[("u", ⟨"u", "pr", ⟨0, 0⟩, none, 0⟩),
               ("v", ⟨"v", "pr", ⟨0, 0⟩, none, 0⟩)], []⟩)],
        [(0, ⟨"p", "u", 0⟩), (1, ⟨"p", "v", 0⟩)], 1⟩
      (.change 0 ⟨⟨1, 1, 1, 1⟩, none⟩)).2 =
      [.changeRelay [1] ⟨⟨1, 1, 1, 1⟩, none⟩] ∧
    (srvStep ⟨[("p", 0)],
        [(0, ⟨[("u", ⟨"u", "pr", ⟨0, 0⟩, none, 0⟩),
               ("v", ⟨"v", "pr", ⟨0, 0⟩, none, 0⟩)], []⟩)],
        [(0, ⟨"p", "u", 0⟩), (1, ⟨"p", "v", 0⟩)], 1⟩
      (.cursor 0 ⟨2, 3⟩ none 9)).2 =
      [.presence [0, 1] [⟨"u", "pr", ⟨2, 3⟩, none, 9⟩, ⟨"v", "pr", ⟨0, 0⟩, none, 0⟩]] := by
  have h := c8_fanout ⟨[("p", 0)],
      [(0, ⟨[("u", ⟨"u", "pr", ⟨0, 0⟩, none, 0⟩),
             ("v", ⟨"v", "pr", ⟨0, 0⟩, none, 0⟩)], []⟩)],
      [(0, ⟨"p", "u", 0⟩), (1, ⟨"p", "v", 0⟩)], 1⟩
    0 ⟨"p", "u", 0⟩ ⟨⟨1, 1, 1, 1⟩, none⟩ ⟨2, 3⟩ none 9
    ⟨[("u", ⟨"u", "pr", ⟨0, 0⟩, none, 0⟩), ("v", ⟨"v", "pr", ⟨0, 0⟩, none, 0⟩)], []⟩
    ⟨"u", "pr", ⟨0, 0⟩, none, 0⟩ (by decide) (by decide) (by decide)
  exact ⟨h.1.1.trans (by decide), h.2.1.trans (by decide)⟩

/-- Claim C6: room creation is gated on existence of the id in the `rooms`
map.  With a valid handshake, a join to an id that already has a room
reuses the registered `RoomState` object — the map, the heap domain and
the allocation counter are untouched, the room keeps its buffer and its
participant set only gains the joiner — and a join to an unknown id
allocates exactly one fresh `RoomState` (one allocation, empty buffer, a
single participant) and is never an error. -/
theorem c6_one_room_per_id (st : SrvState) (sid : Nat) (pid uid prof : String)
    (now : Nat) (ref : Nat) (room : RoomState)
    (hpid : pid ≠ "") (huid : uid ≠ "") (hprof : prof ≠ "") :
    (alGet st.rooms pid = some ref → alGet st.heap ref = some room →
      srvStep st (.connect sid (some pid) (some uid) (some prof) now) =
        (⟨st.rooms,
          alSet st.heap ref
            { room with users := alSet room.users uid ⟨uid, prof, ⟨0, 0⟩, none, now⟩ },
          alSet st.conns sid ⟨pid, uid, ref⟩, st.nextRef⟩,
         [.presence (members (alSet st.conns sid ⟨pid, uid, ref⟩) pid)
            (alValues (alSet room.users uid ⟨uid, prof, ⟨0, 0⟩, none, now⟩))])) ∧
    (alGet st.rooms pid = none →
      srvStep st (.connect sid (some pid) (some uid) (some prof) now) =
        (⟨alSet st.rooms pid st.nextRef,
          alSet st.heap st.nextRef ⟨[(uid, ⟨uid, prof, ⟨0, 0⟩, none, now⟩)], []⟩,
          alSet st.conns sid ⟨pid, uid, st.nextRef⟩, st.nextRef + 1⟩,
         [.presence (members (alSet st.conns sid ⟨pid, uid, st.nextRef⟩) pid)
            [⟨uid, prof, ⟨0, 0⟩, none, now⟩]])) := by
  have h1 : falsy (some pid) = false := by simp [falsy, hpid]
  have h2 : falsy (some uid) = false := by simp [falsy, huid]
  have h3 : falsy (some prof) = false := by simp [falsy, hprof]
  constructor
  · intro hrooms hroom
    simp only [srvStep, h1, h2, h3, Bool.or_false, Bool.false_or, if_neg,
      Option.getD_some, hrooms, hroom, alGet_alSet_self]
    rfl
  · intro hrooms
    simp only [srvStep, h1, h2, h3, Bool.or_false, Bool.false_or, if_neg,
      Option.getD_some, hrooms, alGet_alSet_self, alSet_alSet_self]
    rfl

/-- Witness for C6: joining the existing room `"p"` reuses it, joining the
unknown id `"q"` allocates one fresh empty room. -/
theorem c6_one_room_per_id_witness :
    srvStep ⟨[("p", 0)], [(0, ⟨[], ['a']⟩)], [], 1⟩
        (.connect 4 (some "p") (some "u") (some "pr") 2) =
      (⟨[("p", 0)], [(0, ⟨[("u", ⟨"u", "pr", ⟨0, 0⟩, none, 2⟩)], ['a']⟩)],
        [(4, ⟨"p", "u", 0⟩)], 1⟩,
       [.presence [4] [⟨"u", "pr", ⟨0, 0⟩, none, 2⟩]]) ∧
    srvStep ⟨[("p", 0)], [(0, ⟨[], ['a']⟩)], [], 1⟩
        (.connect 4 (some "q") (some "u") (some "pr") 2) =
      (⟨[("p", 0), ("q", 1)], [(0, ⟨[], ['a']⟩), (1, ⟨[("u", ⟨"u", "pr", ⟨0, 0⟩, none, 2⟩)], []⟩)],
        [(4, ⟨"q", "u", 1⟩)], 2⟩,
       [.presence [4] [⟨"u", "pr", ⟨0, 0⟩, none, 2⟩]]) := by
  have h := c6_one_room_per_id ⟨[("p", 0)], [(0, ⟨[], ['a']⟩)], [], 1⟩ 4 "p" "u" "pr" 2
    0 ⟨[], ['a']⟩ (by decide) (by decide) (by decide)
  have h2 := c6_one_room_per_id ⟨[("p", 0)], [(0, ⟨[], ['a']⟩)], [], 1⟩ 4 "q" "u" "pr" 2
    0 ⟨[], ['a']⟩ (by decide) (by decide) (by decide)
  exact ⟨(h.1 (by decide) (by decide)).trans (by decide),
    (h2.2 (by decide)).trans (by decide)⟩

/-- Claim C7: when the last participant of a room disconnects, the room is
removed from the registry immediately; a later valid join with the same id
goes down the creation path and produces a fresh room whose buffer is empty
and whose presence set holds only the new joiner — nothing leaks from the
previous instance. -/
theorem c7_teardown_fresh_rejoin (st : SrvState) (sid : Nat) (ci : ConnInfo)
    (room : RoomState) (u : UserPresence)
    (sid2 : Nat) (uid2 prof2 : String) (now2 : Nat)
    (hconn : alGet st.conns sid = some ci)
    (hroom : alGet st.heap ci.roomRef = some room)
    (honly : room.users = [(ci.userId, u)])
    (hpid : ci.projectId ≠ "") (huid2 : uid2 ≠ "") (hprof2 : prof2 ≠ "") :
    alGet (srvStep st (.disconnect sid)).1.rooms ci.projectId = none ∧
    alGet (srvStep (srvStep st (.disconnect sid)).1
        (.connect sid2 (some ci.projectId) (some uid2) (some prof2) now2)).1.rooms
      ci.projectId = some (srvStep st (.disconnect sid)).1.nextRef ∧
    alGet (srvStep (srvStep st (.disconnect sid)).1
        (.connect sid2 (some ci.projectId) (some uid2) (some prof2) now2)).1.heap
      (srvStep st (.disconnect sid)).1.nextRef =
      some ⟨[(uid2, ⟨uid2, prof2, ⟨0, 0⟩, none, now2⟩)], []⟩ := by
  have hdelu : alDel room.users ci.userId = [] := by
    rw [honly]
    simp [alDel, List.filter_cons]
  have hst1 : (srvStep st (.disconnect sid)).1 =
      ⟨alDel st.rooms ci.projectId,
       alSet st.heap ci.roomRef { room with users := [] },
       alDel st.conns sid, st.nextRef⟩ := by
    simp only [srvStep, hconn, hroom, hdelu, List.length_nil, if_pos]
  have hpart1 : alGet (srvStep st (.disconnect sid)).1.rooms ci.projectId = none := by
    rw [hst1]
    exact alGet_alDel_self st.rooms ci.projectId
  refine ⟨hpart1, ?_⟩
  have h1 : falsy (some ci.projectId) = false := by simp [falsy, hpid]
  have h2 : falsy (some uid2) = false := by simp [falsy, huid2]
  have h3 : falsy (some prof2) = false := by simp [falsy, hprof2]
  have hstep2 : srvStep (srvStep st (.disconnect sid)).1
      (.connect sid2 (some ci.projectId) (some uid2) (some prof2) now2) =
      (⟨alSet (srvStep st (.disconnect sid)).1.rooms ci.projectId
          (srvStep st (.disconnect sid)).1.nextRef,
        alSet (srvStep st (.disconnect sid)).1.heap
          (srvStep st (.disconnect sid)).1.nextRef
          ⟨[(uid2, ⟨uid2, prof2, ⟨0, 0⟩, none, now2⟩)], []⟩,
        alSet (srvStep st (.disconnect sid)).1.conns sid2
          ⟨ci.projectId, uid2, (srvStep st (.disconnect sid)).1.nextRef⟩,
        (srvStep st (.disconnect sid)).1.nextRef + 1⟩,
       [.presence (members (alSet (srvStep st (.disconnect sid)).1.conns sid2
          ⟨ci.projectId, uid2, (srvStep st (.disconnect sid)).1.nextRef⟩) ci.projectId)
          [⟨uid2, prof2, ⟨0, 0⟩, none, now2⟩]]) := by
    rw [hst1]
    simp only [srvStep, h1, h2, h3, Bool.or_false, Bool.false_or,
      Option.getD_some, alGet_alDel_self, alGet_alSet_self, alSet_alSet_self]
    rfl
  rw [hstep2]
  exact ⟨alGet_alSet_self _ _ _, alGet_alSet_self _ _ _⟩

/-- Witness for C7: the one-participant room `"p"` is removed on
disconnect and re-created empty on the next join. -/
theorem c7_teardown_fresh_rejoin_witness :
    alGet (srvStep ⟨[("p", 0)],
        [(0, ⟨[("u", ⟨"u", "pr", ⟨0, 0⟩, none, 0⟩)], ['a', 'b']⟩)],
        [(0, ⟨"p", "u", 0⟩)], 1⟩ (.disconnect 0)).1.rooms "p" = none ∧
    alGet (srvStep (srvStep ⟨[("p", 0)],
        [(0, ⟨[("u", ⟨"u", "pr", ⟨0, 0⟩, none, 0⟩)], ['a', 'b']⟩)],
        [(0, ⟨"p", "u", 0⟩)], 1⟩ (.disconnect 0)).1
        (.connect 3 (some "p") (some "w") (some "pw") 6)).1.heap
      (srvStep ⟨[("p", 0)],
        [(0, ⟨[("u", ⟨"u", "pr", ⟨0, 0⟩, none, 0⟩)], ['a', 'b']⟩)],
        [(0, ⟨"p", "u", 0⟩)], 1⟩ (.disconnect 0)).1.nextRef =
      some ⟨[("w", ⟨"w", "pw", ⟨0, 0⟩, none, 6⟩)], []⟩ := by
  have h := c7_teardown_fresh_rejoin ⟨[("p", 0)],
      [(0, ⟨[("u", ⟨"u", "pr", ⟨0, 0⟩, none, 0⟩)], ['a', 'b']⟩)],
      [(0, ⟨"p", "u", 0⟩)], 1⟩ 0 ⟨"p", "u", 0⟩
    ⟨[("u", ⟨"u", "pr", ⟨0, 0⟩, none, 0⟩)], ['a', 'b']⟩ ⟨"u", "pr", ⟨0, 0⟩, none, 0⟩
    3 "w" "pw" 6 (by decide) (by decide) (by decide) (by decide) (by decide) (by decide)
  exact ⟨h.1, h.2.2⟩

/-- Claim C5: every presence broadcast the server emits — on a join, on a
cursor update and on a disconnect — carries the complete current presence
set of the addressed room: the payload is exactly the room's users map
after the update, and its participant ids are a permutation of the ids of
the sockets currently connected to that room (one record per
currently-connected participant, never stale or partial). -/
theorem c5_presence_complete :
    (∀ (st : SrvState) (sid : Nat) (ci : ConnInfo) (room : RoomState)
       (u : UserPresence) (pos : CursorPos) (sel : Option SelectionR) (now : Nat),
      alGet st.conns sid = some ci →
      alGet st.heap ci.roomRef = some room →
      alGet room.users ci.userId = some u →
      usersWellTagged room.users →
      (alKeys room.users).Perm (roomUids st.conns ci.projectId) →
      (srvStep st (.cursor sid pos sel now)).2 =
        [.presence (members st.conns ci.projectId)
          (alValues (alSet room.users ci.userId
            { u with cursor := pos, selection := sel, lastActive := now }))] ∧
      ((alValues (alSet room.users ci.userId
          { u with cursor := pos, selection := sel, lastActive := now })).map
        (fun q => q.userId)).Perm (roomUids st.conns ci.projectId)) ∧
    (∀ (st : SrvState) (sid : Nat) (pid uid prof : String) (now ref : Nat)
       (room : RoomState),
      pid ≠ "" → uid ≠ "" → prof ≠ "" →
      alGet st.conns sid = none →
      alGet st.rooms pid = some ref →
      alGet st.heap ref = some room →
      usersWellTagged room.users →
      (alKeys room.users).Perm (roomUids st.conns pid) →
      uid ∉ alKeys room.users →
      (srvStep st (.connect sid (some pid) (some uid) (some prof) now)).2 =
        [.presence (members (alSet st.conns sid ⟨pid, uid, ref⟩) pid)
          (alValues (alSet room.users uid ⟨uid, prof, ⟨0, 0⟩, none, now⟩))] ∧
      ((alValues (alSet room.users uid ⟨uid, prof, ⟨0, 0⟩, none, now⟩)).map
        (fun q => q.userId)).Perm
        (roomUids (alSet st.conns sid ⟨pid, uid, ref⟩) pid)) ∧
    (∀ (st : SrvState) (sid : Nat) (pid uid prof : String) (now : Nat),
      pid ≠ "" → uid ≠ "" → prof ≠ "" →
      alGet st.conns sid = none →
      alGet st.rooms pid = none →
      roomUids st.conns pid = [] →
      (srvStep st (.connect sid (some pid) (some uid) (some prof) now)).2 =
        [.presence (members (alSet st.conns sid ⟨pid, uid, st.nextRef⟩) pid)
          [⟨uid, prof, ⟨0, 0⟩, none, now⟩]] ∧
      ([(⟨uid, prof, ⟨0, 0⟩, none, now⟩ : UserPresence)].map
        (fun q => q.userId)).Perm
        (roomUids (alSet st.conns sid ⟨pid, uid, st.nextRef⟩) pid)) ∧
    (∀ (st : SrvState) (sid : Nat) (ci : ConnInfo) (room : RoomState),
      alGet st.conns sid = some ci →
      alGet st.heap ci.roomRef = some room →
      usersWellTagged room.users →
      (alKeys st.conns).Nodup →
      (alKeys room.users).Nodup →
      (alKeys room.users).Perm (roomUids st.conns ci.projectId) →
      (srvStep st (.disconnect sid)).2 =
        [.presence (members (alDel st.conns sid) ci.projectId)
          (alValues (alDel room.users ci.userId))] ∧
      ((alValues (alDel room.users ci.userId)).map (fun q => q.userId)).Perm
        (roomUids (alDel st.conns sid) ci.projectId)) := by
  refine ⟨?_, ?_, ?_, ?_⟩
  · intro st sid ci room u pos sel now hconn hroom huser htag hperm
    constructor
    · simp only [srvStep, hconn, hroom, huser]
    · have hmem := alGet_mem room.users ci.userId u huser
      have hutag : u.userId = ci.userId := htag _ hmem
      have htag2 : usersWellTagged (alSet room.users ci.userId
          { u with cursor := pos, selection := sel, lastActive := now }) :=
        usersWellTagged_alSet room.users ci.userId _ htag hutag
      rw [alValues_map_userId _ htag2,
        alKeys_alSet_of_mem room.users ci.userId u _ huser]
      exact hperm
  · intro st sid pid uid prof now ref room hpid huid hprof hsid hrooms hroom htag
      hperm hnew
    have h1 : falsy (some pid) = false := by simp [falsy, hpid]
    have h2 : falsy (some uid) = false := by simp [falsy, huid]
    have h3 : falsy (some prof) = false := by simp [falsy, hprof]
    constructor
    · simp only [srvStep, h1, h2, h3, Bool.or_false, Bool.false_or,
        Option.getD_some, hrooms, hroom, alGet_alSet_self]
      rfl
    · have husers_none : alGet room.users uid = none :=
        alGet_none_of_not_mem_keys room.users uid hnew
      have htag2 : usersWellTagged
          (room.users ++ [(uid, ⟨uid, prof, ⟨0, 0⟩, none, now⟩)]) := by
        intro p hp
        rcases List.mem_append.mp hp with hp2 | hp2
        · exact htag p hp2
        · rcases List.mem_singleton.mp hp2 with rfl
          rfl
      rw [alSet_of_alGet_none _ _ _ husers_none, alSet_of_alGet_none _ _ _ hsid,
        alValues_map_userId _ htag2, alKeys_append_single,
        roomUids_append_conn st.conns sid ⟨pid, uid, ref⟩ pid rfl]
      exact hperm.append (List.Perm.refl [uid])
  · intro st sid pid uid prof now hpid huid hprof hsid hrooms hempty
    have h1 : falsy (some pid) = false := by simp [falsy, hpid]
    have h2 : falsy (some uid) = false := by simp [falsy, huid]
    have h3 : falsy (some prof) = false := by simp [falsy, hprof]
    constructor
    · simp only [srvStep, h1, h2, h3, Bool.or_false, Bool.false_or,
        Option.getD_some, hrooms, alGet_alSet_self, alSet_alSet_self]
      rfl
    · rw [alSet_of_alGet_none _ _ _ hsid,
        roomUids_append_conn st.conns sid ⟨pid, uid, st.nextRef⟩ pid rfl, hempty]
      simp
  · intro st sid ci room hconn hroom htag hndC hndU hperm
    have hmemc := alGet_mem st.conns sid ci hconn
    constructor
    · simp only [srvStep, hconn, hroom]
    · have huidmem : ci.userId ∈ alKeys room.users :=
        (hperm.mem_iff).mpr (mem_roomUids st.conns sid ci hmemc)
      obtain ⟨v, hv⟩ := exists_of_mem_alKeys room.users ci.userId huidmem
      have hpermU := alKeys_perm_alDel room.users ci.userId v hv hndU
      have hpermC := roomUids_perm_alDel st.conns sid ci hmemc hndC
      have htag2 := usersWellTagged_alDel room.users ci.userId htag
      rw [alValues_map_userId _ htag2]
      exact ((hpermU.symm.trans hperm).trans hpermC).cons_inv

/-- Witness for C5 (cursor case) on a two-member room: the snapshot holds
both current participants, with the origin's cursor updated. -/
theorem c5_presence_complete_witness :
    (srvStep ⟨[("p", 0)],
        [(0, ⟨[("u", ⟨"u", "pr", ⟨0, 0⟩, none, 0⟩),
               ("v", ⟨"v", "pv", ⟨0, 0⟩, none, 0⟩)], []⟩)],
        [(0, ⟨"p", "u", 0⟩), (1, ⟨"p", "v", 0⟩)], 1⟩
      (.cursor 0 ⟨5, 6⟩ none 11)).2 =
      [.presence [0, 1]
        [⟨"u", "pr", ⟨5, 6⟩, none, 11⟩, ⟨"v", "pv", ⟨0, 0⟩, none, 0⟩]] := by
  have h := c5_presence_complete.1 ⟨[("p", 0)],
      [(0, ⟨[("u", ⟨"u", "pr", ⟨0, 0⟩, none, 0⟩),
             ("v", ⟨"v", "pv", ⟨0, 0⟩, none, 0⟩)], []⟩)],
      [(0, ⟨"p", "u", 0⟩), (1, ⟨"p", "v", 0⟩)], 1⟩
    0 ⟨"p", "u", 0⟩
    ⟨[("u", ⟨"u", "pr", ⟨0, 0⟩, none, 0⟩), ("v", ⟨"v", "pv", ⟨0, 0⟩, none, 0⟩)], []⟩
    ⟨"u", "pr", ⟨0, 0⟩, none, 0⟩ ⟨5, 6⟩ none 11
    (by decide) (by decide) (by decide) (by decide) (by decide)
  exact h.1.trans (by decide)

theorem processStep_conserves (s : QueueState) (e : QEvent)
    (hwf : s.isProcessing = s.inFlight.isSome) :
    (processStep s e).isProcessing = (processStep s e).inFlight.isSome ∧
    (processStep s e).applied ++ inFlightList (processStep s e).inFlight ++
        (processStep s e).operationQueue =
      s.applied ++ inFlightList s.inFlight ++ s.operationQueue ++ arrivals [e] := by
  cases e with
  | arrive op =>
    by_cases hp : s.isProcessing
    · simp only [processStep, if_pos hp]
      exact ⟨hwf, by simp [arrivals, List.append_assoc]⟩
    · have hif : s.inFlight = none := by
        cases h : s.inFlight with
        | none => rfl
        | some v => rw [h] at hwf; simp at hwf; exact absurd hwf hp
      cases hq : s.operationQueue with
      | nil =>
        simp only [processStep, if_neg hp, hq, List.nil_append]
        exact ⟨rfl, by simp [hif, inFlightList, arrivals]⟩
      | cons x xs =>
        simp only [processStep, if_neg hp, hq, List.cons_append]
        exact ⟨rfl, by simp [hif, inFlightList, arrivals]⟩
  | complete =>
    cases hif : s.inFlight with
    | none =>
      simp only [processStep, hif]
      exact ⟨by rw [hwf, hif], by simp [inFlightList, arrivals]⟩
    | some op =>
      cases hq : s.operationQueue with
      | nil =>
        simp only [processStep, hif, hq]
        exact ⟨rfl, by simp [inFlightList, arrivals]⟩
      | cons x xs =>
        simp only [processStep, hif, hq]
        refine ⟨?_, by simp [inFlightList, arrivals]⟩
        rw [hwf, hif]
        rfl

theorem runQ_conserves (tr : List QEvent) (s : QueueState)
    (hwf : s.isProcessing = s.inFlight.isSome) :
    ((runQ s tr).isProcessing = (runQ s tr).inFlight.isSome) ∧
    (runQ s tr).applied ++ inFlightList (runQ s tr).inFlight ++
        (runQ s tr).operationQueue =
      s.applied ++ inFlightList s.inFlight ++ s.operationQueue ++ arrivals tr := by
  induction tr generalizing s with
  | nil => exact ⟨hwf, by simp [runQ, arrivals]⟩
  | cons e es ih =>
    obtain ⟨hwf1, hcons1⟩ := processStep_conserves s e hwf
    obtain ⟨hwf2, hcons2⟩ := ih (processStep s e) hwf1
    refine ⟨hwf2, ?_⟩
    simp only [runQ]
    rw [hcons2, hcons1]
    cases e <;> simp [arrivals, List.append_assoc]

/-- Claim C4 (amended): `SharedFileSystem` keeps ONE global operation
queue (`operationQueue` with a single `isProcessing` drain loop), not a
queue per entity.  Operations are applied strictly in global arrival
order, one at a time to completion — which preserves the enqueue order of
any two operations on the same entity id, but also serializes operations
on different entity ids through the same queue instead of letting them
proceed independently.  At any point, the applied prefix, the in-flight
operation and the pending queue together are exactly the arrivals in
order. -/
theorem c4_global_fifo (tr : List QEvent) :
    (runQ q0 tr).applied ++ inFlightList (runQ q0 tr).inFlight ++
      (runQ q0 tr).operationQueue = arrivals tr := by
  have h := runQ_conserves tr q0 rfl
  simpa [q0, inFlightList] using h.2

/-- Counterexample to C4 as stated: two operations on the DIFFERENT
entities `"a"` and `"b"` do not proceed independently.  After both arrive,
the `"b"` operation sits in the same global queue, not yet started, while
the `"a"` operation is in flight; only when the `"a"` operation completes
does the `"b"` operation start.  There is no per-entity queue keyed by
file path. -/
theorem c4_counterexample :
    runQ q0 [QEvent.arrive ⟨.create, ⟨"a", ""⟩, none, "u", 0⟩,
             QEvent.arrive ⟨.create, ⟨"b", ""⟩, none, "v", 1⟩] =
      ⟨[⟨.create, ⟨"b", ""⟩, none, "v", 1⟩], true,
       some ⟨.create, ⟨"a", ""⟩, none, "u", 0⟩, []⟩ ∧
    runQ q0 [QEvent.arrive ⟨.create, ⟨"a", ""⟩, none, "u", 0⟩,
             QEvent.arrive ⟨.create, ⟨"b", ""⟩, none, "v", 1⟩, QEvent.complete] =
      ⟨[], true, some ⟨.create, ⟨"b", ""⟩, none, "v", 1⟩,
       [⟨.create, ⟨"a", ""⟩, none, "u", 0⟩]⟩ := by
  exact ⟨by decide, by decide⟩

/-- Counterexample to C1's concrete example: on the buffer
`["abc","def"]`, the change with range (1,2)-(2,2) and text `"X\nY"`
yields `["aX","Yef"]` (the end column is exclusive, Monaco-style:
`endLine.substring(endColumn - 1)` keeps `"ef"`), not the `["aX","Yf"]`
the claim states. -/
theorem c1_counterexample :
    applyChange (joinLines [['a', 'b', 'c'], ['d', 'e', 'f']])
        ⟨⟨1, 2, 2, 2⟩, ['X', '\n', 'Y']⟩ =
      some (joinLines [['a', 'X'], ['Y', 'e', 'f']]) ∧
    applyChange (joinLines [['a', 'b', 'c'], ['d', 'e', 'f']])
        ⟨⟨1, 2, 2, 2⟩, ['X', '\n', 'Y']⟩ ≠
      some (joinLines [['a', 'X'], ['Y', 'f']]) := by
  exact ⟨by decide, by decide⟩

/-- Claim C1 (amended): for every buffer and every in-bounds range,
`applyChange` performs exactly the standard range-replace edit of the
spec: the prefix of the start line (before the 1-based start column) and
the suffix of the end line (from the 1-based, exclusive end column) are
preserved and the addressed region is replaced by the possibly multi-line
text.  In particular the example of the claim yields `["aX","Yef"]`
(exclusive end column), not `["aX","Yf"]`. -/
theorem c1_range_replace (bs : List Str) (i j k jl : Nat) (t : Str)
    (hnl : ∀ l ∈ bs, '\n' ∉ l) (hik : i ≤ k) (hk : k < bs.length)
    (hj : j ≤ (bs.getD i []).length) (hjl : jl ≤ (bs.getD k []).length) :
    applyChange (joinLines bs)
      ⟨⟨(i : Int) + 1, (j : Int) + 1, (k : Int) + 1, (jl : Int) + 1⟩, t⟩ =
      some (joinLines (rangeReplaceSpec bs i j k jl t)) :=
  applyChange_rangeReplace bs i j k jl t hnl hik hk hj hjl

/-- Witness for the amended C1 at the claim's example, with the corrected
result `["aX","Yef"]`. -/
theorem c1_range_replace_witness :
    applyChange (joinLines [['a', 'b', 'c'], ['d', 'e', 'f']])
        ⟨⟨1, 2, 2, 2⟩, ['X', '\n', 'Y']⟩ =
      some (joinLines [['a', 'X'], ['Y', 'e', 'f']]) := by
  have h := c1_range_replace [['a', 'b', 'c'], ['d', 'e', 'f']] 0 1 1 1
    ['X', '\n', 'Y'] (by decide) (by decide) (by decide) (by decide) (by decide)
  exact h.trans (by decide)

/-- Claim C3: inserting text `t` at an in-bounds position (empty range)
and then deleting the range that spans exactly the inserted text (empty
replacement) restores the original buffer, for every buffer, position and
text.  In particular `{range:(1,1)-(1,1), text:"hi"}` on `["world"]`
yields `["hiworld"]` and the subsequent `{range:(1,1)-(1,3), text:""}`
yields `["world"]` again. -/
theorem c3_insert_delete (s : Str) (i j : Nat) (t : Str)
    (hi : i < (splitLines s).length)
    (hj : j ≤ ((splitLines s).getD i []).length) :
    (applyChange s ⟨⟨(i : Int) + 1, (j : Int) + 1, (i : Int) + 1, (j : Int) + 1⟩, t⟩).bind
      (fun s1 => applyChange s1
        ⟨⟨(i : Int) + 1, (j : Int) + 1,
          ((i + ((splitLines t).length - 1) : Nat) : Int) + 1,
          ((spanEndCol j t : Nat) : Int) + 1⟩, []⟩) = some s :=
  insert_delete_id s i j t hi hj

/-- Witness for C3 at the claim's example: insert `"hi"` at (1,1) of
`"world"` (giving `"hiworld"`), then delete (1,1)-(1,3). -/
theorem c3_insert_delete_witness :
    applyChange ['w', 'o', 'r', 'l', 'd'] ⟨⟨1, 1, 1, 1⟩, ['h', 'i']⟩ =
      some ['h', 'i', 'w', 'o', 'r', 'l', 'd'] ∧
    (applyChange ['w', 'o', 'r', 'l', 'd'] ⟨⟨1, 1, 1, 1⟩, ['h', 'i']⟩).bind
      (fun s1 => applyChange s1 ⟨⟨1, 1, 1, 3⟩, []⟩) =
      some ['w', 'o', 'r', 'l', 'd'] := by
  refine ⟨by decide, ?_⟩
  have h := c3_insert_delete ['w', 'o', 'r', 'l', 'd'] 0 0 ['h', 'i']
    (by decide) (by decide)
  exact h
